import Mathlib

/-!
Shallow embedding of the Aura investigation pipeline
(`src/core/state.py`, `src/core/agents.py`, `src/core/graph.py`).

External calls to the language-model extraction service are modelled as
oracle parameters: each call site receives an `Option` result, where
`none` models the call raising an exception (caught by the agent) and
`some xs` models a successful structured response.
-/

namespace Aura

/-! ## Data model (`src/core/state.py`) -/

/-- `SubjectProfile` from `state.py`. -/
structure SubjectProfile where
  name : String
  entity_type : String
  dob : Option String
  locations : List String
  keywords : List String
deriving DecidableEq

/-- `Document` from `state.py`. -/
structure Document where
  url : String
  title : String
  raw_content : String
  source : String
deriving DecidableEq

/-- `ExtractedEntity` from `state.py`. -/
structure ExtractedEntity where
  name : String
  type : String
  source_document_url : String
deriving DecidableEq

/-- `SummarizedEntity` from `state.py`. -/
structure SummarizedEntity where
  name : String
  type : String
  count : Nat
  source_urls : List String
deriving DecidableEq

/-- `Relationship` from `state.py`. -/
structure Relationship where
  source_entity : String
  target_entity : String
  relationship_type : String
  source_document_url : String
deriving DecidableEq

/-- `Risk` from `state.py`. -/
structure Risk where
  risk_type : String
  details : String
  source_document_url : String
deriving DecidableEq

/-- `InvestigationState` (the TypedDict) from `state.py`. -/
structure InvestigationState where
  subject : SubjectProfile
  documents : List Document
  extracted_entities : List ExtractedEntity
  summarized_entities : List SummarizedEntity
  relationships : List Relationship
  risks : List Risk
deriving DecidableEq

/-- A partial state mapping, as returned by a LangGraph node: a key is
present (`some`) or absent (`none`).  An agent returning the whole state
dict corresponds to an update with every field `some`. -/
structure StateUpdate where
  subject : Option SubjectProfile
  documents : Option (List Document)
  extracted_entities : Option (List ExtractedEntity)
  summarized_entities : Option (List SummarizedEntity)
  relationships : Option (List Relationship)
  risks : Option (List Risk)
deriving DecidableEq

/-- The empty partial update (no keys present). -/
def StateUpdate.empty : StateUpdate :=
  ⟨none, none, none, none, none, none⟩

/-- Key-wise merge of a partial update into the full record: a key absent
from the update leaves the existing value untouched, a key present
replaces it (`thread_state.update(value)` in `main.py`, and the LangGraph
channel semantics for plain fields). -/
def applyUpdate (st : InvestigationState) (u : StateUpdate) : InvestigationState where
  subject := u.subject.getD st.subject
  documents := u.documents.getD st.documents
  extracted_entities := u.extracted_entities.getD st.extracted_entities
  summarized_entities := u.summarized_entities.getD st.summarized_entities
  relationships := u.relationships.getD st.relationships
  risks := u.risks.getD st.risks

/-- Python `str.lower()` over the ASCII alphabet used by the pipeline
(character-list implementation, so that it evaluates by kernel
reduction). -/
def pyLower (s : String) : String :=
  String.mk (s.toList.map Char.toLower)

/-! ## Search stage (`web_search_agent` in `agents.py`) -/

/-- The hard-coded high-profile allow-list of `agents.py` line 77. -/
def highProfileNames : List String := ["elon musk", "tesla"]

/-- The body of the per-response loop of `web_search_agent`: each document
is appended to the running list iff its url has not been seen yet
(`unique_urls` always equals the set of urls of `all_found_documents`,
so membership is tested against the urls of the accumulator). -/
def addDocs (acc : List Document) : List Document → List Document
  | [] => acc
  | d :: rest =>
    if d.url ∈ acc.map (fun x => x.url) then addDocs acc rest
    else addDocs (acc ++ [d]) rest

/-- Processing of one extraction-service response: an exception (`none`)
is caught and contributes nothing; a successful response has its
documents folded in with url de-duplication. -/
def phaseAdd (acc : List Document) : Option (List Document) → List Document
  | none => acc
  | some ds => addDocs acc ds

/-- `web_search_agent`'s document computation.  `broad` is the phase-1
response; `deep` holds one response per deep-search angle attempted.
Returns the final document list together with the number of deep-search
requests issued (0 when the phase-2 gate fails). -/
def webSearchRun (subject : SubjectProfile) (broad : Option (List Document))
    (deep : List (Option (List Document))) : List Document × Nat :=
  let p1 := phaseAdd [] broad
  if 0 < p1.length ∨ pyLower subject.name ∈ highProfileNames then
    (deep.foldl phaseAdd p1, deep.length)
  else (p1, 0)

/-- `web_search_agent` as a LangGraph node: it returns the partial dict
`{"documents": all_found_documents}` (line 110 of `agents.py`). -/
def web_search_agent (broad : Option (List Document))
    (deep : List (Option (List Document))) (st : InvestigationState) : StateUpdate :=
  { StateUpdate.empty with
    documents := some (webSearchRun st.subject broad deep).1 }

/-- The sequence of documents returned by the extraction service across
both phases, in processing order (phase-1 results, then each attempted
angle's results in order; failed calls contribute nothing). -/
def searchStream (subject : SubjectProfile) (broad : Option (List Document))
    (deep : List (Option (List Document))) : List Document :=
  let b := (broad.getD [])
  if 0 < (phaseAdd [] broad).length ∨ pyLower subject.name ∈ highProfileNames then
    b ++ (deep.map (fun r => r.getD [])).flatten
  else b

/-- First-occurrence-wins de-duplication by url, the reference form of
the incremental dedup performed by `web_search_agent`. -/
def dedupAux (seen : List String) : List Document → List Document
  | [] => []
  | d :: rest =>
    if d.url ∈ seen then dedupAux seen rest
    else d :: dedupAux (d.url :: seen) rest

/-! ## Entity extraction stage (`entity_extraction_agent` in `agents.py`) -/

/-- `entity_extraction_agent`'s entity computation.  Processes at most
`m = MAX_DOCS_TO_PROCESS` documents (`documents_to_process[:m]`); each
processed document's extraction call either succeeds with a list of
entities that is appended (`extend`), or raises, which is caught and the
document contributes nothing. -/
def extractEntities (m : Nat) (oracle : Document → Option (List ExtractedEntity))
    (docs : List Document) : List ExtractedEntity :=
  ((docs.take m).map (fun d => (oracle d).getD [])).flatten

/-- `entity_extraction_agent` as a LangGraph node: it returns the partial
dict `{"extracted_entities": all_extracted_entities}` (line 156). -/
def entity_extraction_agent (m : Nat) (oracle : Document → Option (List ExtractedEntity))
    (st : InvestigationState) : StateUpdate :=
  { StateUpdate.empty with
    extracted_entities := some (extractEntities m oracle st.documents) }

/-! ## Entity summarization stage (`summarize_entities_agent` in `agents.py`) -/

/-- Python `str.strip()`: drop leading and trailing whitespace. -/
def pstrip (s : String) : String :=
  String.mk (((s.toList.dropWhile Char.isWhitespace).reverse.dropWhile Char.isWhitespace).reverse)

/-- Helper for `pyTitle`: the boolean records whether the previous
character was alphabetic (i.e. we are inside a word). -/
def pyTitleGo : Bool → List Char → List Char
  | _, [] => []
  | insideWord, c :: rest =>
    (if insideWord then c.toLower else c.toUpper) :: pyTitleGo c.isAlpha rest

/-- Python `str.title()`: the first letter of every word upper-cased, the
rest lower-cased (over the ASCII alphabet used by the pipeline). -/
def pyTitle (s : String) : String :=
  String.mk (pyTitleGo false s.toList)

/-- The normalized grouping key of `summarize_entities_agent` line 171:
`(entity.name.strip().lower(), entity.type.lower())`. -/
def normKey (e : ExtractedEntity) : String × String :=
  (pyLower (pstrip e.name), pyLower e.type)

/-- `aggregated_data[key]["urls"].add(url)`: set semantics on the url
collection, kept as a duplicate-free list in insertion order. -/
def addUrl (urls : List String) (u : String) : List String :=
  if u ∈ urls then urls else urls ++ [u]

/-- One step of the aggregation loop: `aggregated_data[key]["count"] += 1`
and `aggregated_data[key]["urls"].add(url)` on an insertion-ordered
association list (the Python dict preserves insertion order). -/
def bump (k : String × String) (u : String) :
    List ((String × String) × Nat × List String) → List ((String × String) × Nat × List String)
  | [] => [(k, 1, [u])]
  | (k', c, us) :: rest =>
    if k' = k then (k', c + 1, addUrl us u) :: rest
    else (k', c, us) :: bump k u rest

/-- The aggregation loop of `summarize_entities_agent` lines 168-173. -/
def entityGroups (raw : List ExtractedEntity) :
    List ((String × String) × Nat × List String) :=
  raw.foldl (fun g e => bump (normKey e) e.source_document_url g) []

/-- Lines 177-185: one `SummarizedEntity` per aggregated key, with
title-cased display name and type. -/
def displayEntity (g : (String × String) × Nat × List String) : SummarizedEntity :=
  { name := pyTitle g.1.1
    type := pyTitle g.1.2
    count := g.2.1
    source_urls := g.2.2 }

/-- Stable insertion of one element into a list already sorted by count
descending: the element goes after every element with a strictly larger
count and before the first element whose count is not larger, so equal
counts keep their original relative order. -/
def insertByCount (x : SummarizedEntity) : List SummarizedEntity → List SummarizedEntity
  | [] => [x]
  | y :: ys => if x.count < y.count then y :: insertByCount x ys else x :: y :: ys

/-- `summarized_list.sort(key=lambda x: x.count, reverse=True)`: Python's
sort is stable; any stable descending sort computes the same list, here
realized as stable insertion sort. -/
def sortByCountDesc : List SummarizedEntity → List SummarizedEntity
  | [] => []
  | x :: xs => insertByCount x (sortByCountDesc xs)

/-- `summarize_entities_agent`'s summarization computation. -/
def summarizeEntities (raw : List ExtractedEntity) : List SummarizedEntity :=
  sortByCountDesc ((entityGroups raw).map displayEntity)

/-- `summarize_entities_agent` as a LangGraph node: it assigns
`state['summarized_entities'] = summarized_list` and then returns the
whole `state` dict (lines 192-193), so every key is present in the
returned mapping. -/
def summarize_entities_agent (st : InvestigationState) : StateUpdate where
  subject := some st.subject
  documents := some st.documents
  extracted_entities := some st.extracted_entities
  summarized_entities := some (summarizeEntities st.extracted_entities)
  relationships := some st.relationships
  risks := some st.risks

/-! ## Relationship extraction stage (`relationship_extraction_agent`) -/

/-- `relationship_extraction_agent`'s relationship computation: for every
document (no cap here) the extraction call either succeeds and its
relationships are appended, or raises and is skipped. -/
def extractRelationships (oracle : Document → Option (List Relationship))
    (docs : List Document) : List Relationship :=
  (docs.map (fun d => (oracle d).getD [])).flatten

/-- `relationship_extraction_agent` as a LangGraph node: it assigns
`state['relationships'] = all_relationships` and returns the whole
`state` dict (lines 246-247). -/
def relationship_extraction_agent (oracle : Document → Option (List Relationship))
    (st : InvestigationState) : StateUpdate where
  subject := some st.subject
  documents := some st.documents
  extracted_entities := some st.extracted_entities
  summarized_entities := some st.summarized_entities
  relationships := some (extractRelationships oracle st.documents)
  risks := some st.risks

/-! ## Risk analysis stage (`risk_analysis_agent` in `agents.py`) -/

/-- Boolean list-prefix test (needle against haystack). -/
def isPrefixList : List Char → List Char → Bool
  | [], _ => true
  | _ :: _, [] => false
  | a :: as, b :: bs => a == b && isPrefixList as bs

/-- Boolean substring test on character lists. -/
def isSubstrList (n : List Char) : List Char → Bool
  | [] => n.isEmpty
  | c :: t => isPrefixList n (c :: t) || isSubstrList n t

/-- Python's `needle in haystack` substring test. -/
def pyContains (haystack needle : String) : Bool :=
  isSubstrList needle.toList haystack.toList

/-- The `risk_keywords` table of `risk_analysis_agent` lines 256-260, in
source order. -/
def risk_keywords : List (String × List String) :=
  [("Legal", ["lawsuit", "sued", "legal action", "sec investigation", "settlement", "court"]),
   ("Financial", ["bankruptcy", "debt", "financial issues", "struggles"]),
   ("Reputational", ["controversy", "scandal", "criticism", "complaint", "allegations", "antisemitic"])]

/-- The inner keyword loop with its `break`: the first keyword of the
category found as a substring of the (lower-cased) content, if any. -/
def findKeyword (content : String) : List String → Option String
  | [] => none
  | k :: rest => if pyContains content k then some k else findKeyword content rest

/-- The risk one category contributes for one document: the first keyword
of the category found in the lower-cased content, if any, wrapped in a
`Risk` record (lines 270-277 of `agents.py`). -/
def categoryRisk (doc : Document) (p : String × List String) : Option Risk :=
  (findKeyword (pyLower doc.raw_content) p.2).map (fun kw =>
    { risk_type := p.1
      details := "Document contains keyword: \x27" ++ kw ++ "\x27"
      source_document_url := doc.url })

/-- Risks emitted for one document: at most one per category, in table
order, carrying the matched keyword in the detail text. -/
def docRisks (doc : Document) : List Risk :=
  risk_keywords.filterMap (categoryRisk doc)

/-- `risk_analysis_agent`'s risk computation over all documents. -/
def analyzeRisks (docs : List Document) : List Risk :=
  (docs.map docRisks).flatten

/-- `risk_analysis_agent` as a LangGraph node: it assigns
`state['risks'] = found_risks` and returns the whole `state` dict
(lines 282-283). -/
def risk_analysis_agent (st : InvestigationState) : StateUpdate where
  subject := some st.subject
  documents := some st.documents
  extracted_entities := some st.extracted_entities
  summarized_entities := some st.summarized_entities
  relationships := some st.relationships
  risks := some (analyzeRisks st.documents)

/-! ## The compiled workflow (`src/core/graph.py`) -/

/-- References to the five agent functions defined in `agents.py`. -/
inductive AgentRef
  | webSearchA
  | entityExtractionA
  | summarizeA
  | relationshipA
  | riskA
deriving DecidableEq

/-- LangGraph's `END` sentinel. -/
def ENDNode : String := "__end__"

/-- The nodes registered on `workflow` by `graph.py` lines 9-11 (note:
`relationship_extraction_agent` and `risk_analysis_agent` are imported
nowhere in `graph.py` and no node is added for them). -/
def workflowNodes : List (String × AgentRef) :=
  [("web_search", AgentRef.webSearchA),
   ("entity_extraction", AgentRef.entityExtractionA),
   ("summarize_entities", AgentRef.summarizeA)]

/-- `workflow.set_entry_point("web_search")`. -/
def workflowEntry : String := "web_search"

/-- The edges added by `graph.py` lines 17-19. -/
def workflowEdges : List (String × String) :=
  [("web_search", "entity_extraction"),
   ("entity_extraction", "summarize_entities"),
   ("summarize_entities", ENDNode)]

/-- Successor of a node in the compiled (deterministic, linear) graph. -/
def nextOf (n : String) : Option String :=
  (workflowEdges.find? (fun e => e.1 == n)).map (fun e => e.2)

/-- The sequence of stage nodes visited when running the compiled graph
from node `n` (fuel-bounded; the terminal sentinel is not listed). -/
def traceFrom : Nat → String → List String
  | 0, _ => []
  | fuel + 1, n =>
    if n = ENDNode then []
    else
      n :: (match nextOf n with
            | none => []
            | some m => traceFrom fuel m)

/-- Whether the run starting at node `n` reaches the terminal sentinel
within `fuel` transitions. -/
def reachesEnd : Nat → String → Bool
  | 0, n => n == ENDNode
  | fuel + 1, n =>
    n == ENDNode ||
      (match nextOf n with
       | none => false
       | some m => reachesEnd fuel m)

/-- The stage nodes visited by one non-aborting run of the compiled
graph, in invocation order. -/
def compiledTrace : List String := traceFrom 10 workflowEntry

/-- The oracle bundle standing for the extraction service and the
configuration constants consumed by the agents. -/
structure Oracles where
  broad : Option (List Document)
  deep : List (Option (List Document))
  maxDocs : Nat
  entities : Document → Option (List ExtractedEntity)
  rels : Document → Option (List Relationship)

/-- Dispatch of an agent reference to its update function. -/
def runAgent (o : Oracles) : AgentRef → InvestigationState → StateUpdate
  | AgentRef.webSearchA, st => web_search_agent o.broad o.deep st
  | AgentRef.entityExtractionA, st => entity_extraction_agent o.maxDocs o.entities st
  | AgentRef.summarizeA, st => summarize_entities_agent st
  | AgentRef.relationshipA, st => relationship_extraction_agent o.rels st
  | AgentRef.riskA, st => risk_analysis_agent st

/-- Execution of the compiled graph from node `n`: invoke the node's
agent on the current state, merge its partial update key-wise, follow
the unique outgoing edge (fuel-bounded). -/
def runFrom (o : Oracles) : Nat → String → InvestigationState → InvestigationState
  | 0, _, st => st
  | fuel + 1, n, st =>
    if n = ENDNode then st
    else
      match workflowNodes.find? (fun p => p.1 == n), nextOf n with
      | some p, some m => runFrom o fuel m (applyUpdate st (runAgent o p.2 st))
      | _, _ => st

/-- One full run of the compiled graph from the entry point. -/
def runCompiled (o : Oracles) (init : InvestigationState) : InvestigationState :=
  runFrom o 10 workflowEntry init

/-! ## Concrete fixtures used in witness instances -/

/-- A concrete low-profile subject. -/
def acmeSubject : SubjectProfile :=
  ⟨"Acme Corp", "company", none, ["NY"], []⟩

/-- A concrete initial state. -/
def sampleState : InvestigationState :=
  ⟨acmeSubject, [], [], [], [], []⟩

/-- Concrete documents; `docA` and `docA2` share the url "u1". -/
def docA : Document := ⟨"u1", "t1", "Acme Corp sued by Beta Inc", "web"⟩

/-- Second document with the duplicate url "u1". -/
def docA2 : Document := ⟨"u1", "t1b", "duplicate of u1", "web"⟩

/-- Document with url "u2". -/
def docB : Document := ⟨"u2", "t2", "second document", "web"⟩

/-- Document with url "u3". -/
def docC : Document := ⟨"u3", "t3", "third document", "web"⟩

/-- A concrete extraction oracle that fails exactly on url "u2". -/
def c8Oracle : Document → Option (List ExtractedEntity) :=
  fun d => if d.url = "u2" then none else some [⟨"Beta Inc", "Company", d.url⟩]

/-- The three raw Tesla mentions of the summarization test property. -/
def tesRaw : List ExtractedEntity :=
  [⟨"Tesla", "Company", "u1"⟩, ⟨"tesla", "company", "u1"⟩, ⟨"TESLA", "Company", "u2"⟩]

/-- Raw entities yielding four groups A, B, C, D (insertion order) with
counts 5, 1, 5, 3. -/
def c6Raw : List ExtractedEntity :=
  [⟨"a", "t", "u"⟩, ⟨"b", "t", "u"⟩, ⟨"c", "t", "u"⟩, ⟨"d", "t", "u"⟩]
    ++ List.replicate 4 ⟨"a", "t", "u"⟩ ++ List.replicate 4 ⟨"c", "t", "u"⟩
    ++ List.replicate 2 ⟨"d", "t", "u"⟩

/-!
# Theorems
-/

/-- C1 counterexample: the compiled state machine of `graph.py` does not
invoke five stages; its run order is the three stages
web_search → entity_extraction → summarize_entities, and no node bound
to `relationship_extraction_agent` or `risk_analysis_agent` is
registered at all, so no run visits those two stages. -/
theorem c1_counterexample :
    compiledTrace ≠ ["web_search", "entity_extraction", "summarize_entities",
      "relationship_extraction", "risk_analysis"]
    ∧ compiledTrace.length = 3
    ∧ (workflowNodes.map Prod.snd).contains AgentRef.relationshipA = false
    ∧ (workflowNodes.map Prod.snd).contains AgentRef.riskA = false := by
  decide

/-- C1 (amended): the compiled state machine invokes the stages in the
fixed linear order web_search → entity_extraction → summarize_entities
and then reaches the terminal state; every non-aborting run visits those
three stages exactly once in that order. -/
theorem c1_three_stage_linear_order :
    compiledTrace = ["web_search", "entity_extraction", "summarize_entities"]
    ∧ reachesEnd 10 workflowEntry = true
    ∧ compiledTrace.count "web_search" = 1
    ∧ compiledTrace.count "entity_extraction" = 1
    ∧ compiledTrace.count "summarize_entities" = 1 := by
  decide

/-- C2 counterexample: `summarize_entities_agent` (and likewise the
relationship and risk agents) does not return a mapping containing only
its own field — it returns the whole state, so e.g. the `risks` key is
present in its returned mapping on a concrete state. -/
theorem c2_counterexample :
    (summarize_entities_agent sampleState).risks ≠ none
    ∧ (relationship_extraction_agent (fun _ => none) sampleState).risks ≠ none
    ∧ (risk_analysis_agent sampleState).documents ≠ none := by
  refine ⟨?_, ?_, ?_⟩ <;> simp [summarize_entities_agent,
    relationship_extraction_agent, risk_analysis_agent]

/-- C2 (amended): the search and entity-extraction stages return partial
mappings containing only their own field; the summarization,
relationship-extraction and risk-analysis stages return the full state,
with every key present, but every key other than their own carries the
unchanged input value — so the key-wise merge never changes a field the
stage does not own. -/
theorem c2_frame_effect :
    (∀ broad deep st, (web_search_agent broad deep st).subject = none
      ∧ (web_search_agent broad deep st).extracted_entities = none
      ∧ (web_search_agent broad deep st).summarized_entities = none
      ∧ (web_search_agent broad deep st).relationships = none
      ∧ (web_search_agent broad deep st).risks = none
      ∧ (web_search_agent broad deep st).documents
          = some (webSearchRun st.subject broad deep).1)
    ∧ (∀ m oracle st, (entity_extraction_agent m oracle st).subject = none
      ∧ (entity_extraction_agent m oracle st).documents = none
      ∧ (entity_extraction_agent m oracle st).summarized_entities = none
      ∧ (entity_extraction_agent m oracle st).relationships = none
      ∧ (entity_extraction_agent m oracle st).risks = none
      ∧ (entity_extraction_agent m oracle st).extracted_entities
          = some (extractEntities m oracle st.documents))
    ∧ (∀ st, summarize_entities_agent st
        = { subject := some st.subject, documents := some st.documents,
            extracted_entities := some st.extracted_entities,
            summarized_entities := some (summarizeEntities st.extracted_entities),
            relationships := some st.relationships, risks := some st.risks })
    ∧ (∀ st, applyUpdate st (summarize_entities_agent st)
        = { st with summarized_entities := summarizeEntities st.extracted_entities })
    ∧ (∀ oracle st, applyUpdate st (relationship_extraction_agent oracle st)
        = { st with relationships := extractRelationships oracle st.documents })
    ∧ (∀ st, applyUpdate st (risk_analysis_agent st)
        = { st with risks := analyzeRisks st.documents }) := by
  exact ⟨fun _ _ _ => ⟨rfl, rfl, rfl, rfl, rfl, rfl⟩,
    fun _ _ _ => ⟨rfl, rfl, rfl, rfl, rfl, rfl⟩,
    fun _ => rfl, fun _ => rfl, fun _ _ => rfl, fun _ => rfl⟩

/-- C4: if phase 1 yields zero documents and the subject's lower-cased
name is not on the high-profile allow-list, the stage output equals the
empty phase-1 result and zero deep-search requests are issued; and any
non-empty phase-1 result enables phase 2 (all angle requests are issued)
regardless of the allow-list. -/
theorem c4_phase2_gating :
    (∀ (s : SubjectProfile) (broad : Option (List Document))
        (deep : List (Option (List Document))),
      phaseAdd [] broad = [] → pyLower s.name ∉ highProfileNames →
      webSearchRun s broad deep = (phaseAdd [] broad, 0))
    ∧ (∀ (s : SubjectProfile) (broad : Option (List Document))
        (deep : List (Option (List Document))),
      phaseAdd [] broad ≠ [] →
      (webSearchRun s broad deep).2 = deep.length) := by
  constructor
  · intro s broad deep h1 h2
    unfold webSearchRun
    rw [if_neg]
    intro hor
    rcases hor with hlen | hmem
    · rw [h1] at hlen
      exact absurd hlen (by simp)
    · exact h2 hmem
  · intro s broad deep h1
    unfold webSearchRun
    rw [if_pos (Or.inl (List.length_pos.mpr h1))]

/-- Witness for C4 at concrete inputs: an empty phase-1 response for a
low-profile subject issues no deep request, and a non-empty phase-1
response issues one request per angle. -/
theorem c4_phase2_gating_witness :
    (phaseAdd [] (some []) = [] ∧ pyLower acmeSubject.name ∉ highProfileNames
      ∧ webSearchRun acmeSubject (some []) [some [docA]] = ([], 0))
    ∧ (phaseAdd [] (some [docA]) ≠ []
      ∧ (webSearchRun acmeSubject (some [docA]) [some [docB], none, some [docC]]).2 = 3) := by
  refine ⟨⟨rfl, by decide, ?_⟩, ⟨by decide, ?_⟩⟩
  · exact c4_phase2_gating.1 acmeSubject (some []) [some [docA]] rfl (by decide)
  · exact c4_phase2_gating.2 acmeSubject (some [docA]) [some [docB], none, some [docC]] (by decide)

/-! ### Lemmas about the url de-duplication of the search stage -/

theorem addDocs_append (ds₁ ds₂ : List Document) :
    ∀ acc, addDocs acc (ds₁ ++ ds₂) = addDocs (addDocs acc ds₁) ds₂ := by
  induction ds₁ with
  | nil => intro acc; rfl
  | cons d rest ih =>
    intro acc
    by_cases h : d.url ∈ acc.map (fun x => x.url) <;>
      simp only [List.cons_append, addDocs, h, if_true, if_false] <;> exact ih _

theorem dedupAux_congr (ds : List Document) :
    ∀ seen₁ seen₂, (∀ u, u ∈ seen₁ ↔ u ∈ seen₂) →
      dedupAux seen₁ ds = dedupAux seen₂ ds := by
  induction ds with
  | nil => intro _ _ _; rfl
  | cons d rest ih =>
    intro seen₁ seen₂ h
    by_cases hm : d.url ∈ seen₁
    · rw [dedupAux, if_pos hm, dedupAux, if_pos ((h d.url).mp hm)]
      exact ih seen₁ seen₂ h
    · rw [dedupAux, if_neg hm, dedupAux, if_neg (fun hc => hm ((h d.url).mpr hc))]
      refine congrArg _ (ih _ _ fun u => ?_)
      simp only [List.mem_cons]
      exact or_congr Iff.rfl (h u)

theorem addDocs_eq_dedupAux (ds : List Document) :
    ∀ acc, addDocs acc ds = acc ++ dedupAux (acc.map (fun x => x.url)) ds := by
  induction ds with
  | nil => intro acc; simp [addDocs, dedupAux]
  | cons d rest ih =>
    intro acc
    by_cases h : d.url ∈ acc.map (fun x => x.url)
    · rw [addDocs, if_pos h, dedupAux, if_pos h]
      exact ih acc
    · rw [addDocs, if_neg h, dedupAux, if_neg h, ih (acc ++ [d])]
      have hc : dedupAux ((acc ++ [d]).map (fun x => x.url)) rest
          = dedupAux (d.url :: acc.map (fun x => x.url)) rest := by
        refine dedupAux_congr rest _ _ fun u => ?_
        simp [or_comm]
      rw [hc]
      simp

theorem mem_dedupAux (ds : List Document) :
    ∀ seen, ∀ e ∈ dedupAux seen ds, e ∈ ds ∧ e.url ∉ seen := by
  induction ds with
  | nil => intro seen e he; exact absurd he (by simp [dedupAux])
  | cons d rest ih =>
    intro seen e he
    by_cases h : d.url ∈ seen
    · rw [dedupAux, if_pos h] at he
      obtain ⟨h1, h2⟩ := ih seen e he
      exact ⟨List.mem_cons_of_mem d h1, h2⟩
    · rw [dedupAux, if_neg h] at he
      rcases List.mem_cons.mp he with rfl | he2
      · exact ⟨List.mem_cons_self e rest, h⟩
      · obtain ⟨h1, h2⟩ := ih _ e he2
        simp only [List.mem_cons] at h2
        push_neg at h2
        exact ⟨List.mem_cons_of_mem d h1, h2.2⟩

theorem dedupAux_pairwise (ds : List Document) :
    ∀ seen, (dedupAux seen ds).Pairwise (fun a b => a.url ≠ b.url) := by
  induction ds with
  | nil => intro seen; simp [dedupAux]
  | cons d rest ih =>
    intro seen
    by_cases h : d.url ∈ seen
    · rw [dedupAux, if_pos h]; exact ih seen
    · rw [dedupAux, if_neg h]
      refine List.pairwise_cons.mpr ⟨fun e he => ?_, ih _⟩
      have := (mem_dedupAux rest _ e he).2
      simp only [List.mem_cons] at this
      push_neg at this
      exact fun hc => this.1 hc.symm

theorem dedupAux_complete (ds : List Document) :
    ∀ seen, ∀ d ∈ ds, d.url ∈ seen ∨ ∃ e ∈ dedupAux seen ds, e.url = d.url := by
  induction ds with
  | nil => intro seen d hd; exact absurd hd (by simp)
  | cons d rest ih =>
    intro seen x hx
    by_cases h : d.url ∈ seen
    · rw [dedupAux, if_pos h]
      rcases List.mem_cons.mp hx with rfl | hx2
      · exact Or.inl h
      · exact ih seen x hx2
    · rw [dedupAux, if_neg h]
      rcases List.mem_cons.mp hx with hx1 | hx2
      · exact Or.inr ⟨d, List.mem_cons_self _ _, by rw [hx1]⟩
      · rcases ih (d.url :: seen) x hx2 with hs | ⟨e, he, heq⟩
        · rcases List.mem_cons.mp hs with heq | hs2
          · exact Or.inr ⟨d, List.mem_cons_self _ _, heq.symm⟩
          · exact Or.inl hs2
        · exact Or.inr ⟨e, List.mem_cons_of_mem d he, heq⟩

theorem dedupAux_find (ds : List Document) :
    ∀ seen, ∀ e ∈ dedupAux seen ds,
      ds.find? (fun x => x.url == e.url) = some e := by
  induction ds with
  | nil => intro seen e he; exact absurd he (by simp [dedupAux])
  | cons d rest ih =>
    intro seen e he
    by_cases h : d.url ∈ seen
    · rw [dedupAux, if_pos h] at he
      have hne : (d.url == e.url) = false := by
        have := (mem_dedupAux rest seen e he).2
        exact beq_eq_false_iff_ne.mpr fun hc => this (hc ▸ h)
      rw [List.find?_cons_of_neg _ (by simp [hne])]
      exact ih seen e he
    · rw [dedupAux, if_neg h] at he
      rcases List.mem_cons.mp he with rfl | he2
      · exact List.find?_cons_of_pos _ (beq_self_eq_true _)
      · have hmem := (mem_dedupAux rest _ e he2).2
        simp only [List.mem_cons] at hmem
        push_neg at hmem
        have hne : (d.url == e.url) = false :=
          beq_eq_false_iff_ne.mpr fun hc => hmem.1 hc.symm
        rw [List.find?_cons_of_neg _ (by simp [hne])]
        exact ih _ e he2

theorem foldl_phaseAdd (deep : List (Option (List Document))) :
    ∀ acc, deep.foldl phaseAdd acc
      = addDocs acc (deep.map (fun r => r.getD [])).flatten := by
  induction deep with
  | nil => intro acc; rfl
  | cons r rest ih =>
    intro acc
    cases r with
    | none => simpa [phaseAdd] using ih acc
    | some ds =>
      simp only [List.foldl_cons, List.map_cons, List.flatten_cons, phaseAdd,
        Option.getD_some, addDocs_append ds]
      exact ih (addDocs acc ds)

theorem phaseAdd_nil_eq (broad : Option (List Document)) :
    phaseAdd [] broad = addDocs [] (broad.getD []) := by
  cases broad <;> rfl

theorem addDocs_nil_eq (ds : List Document) : addDocs [] ds = dedupAux [] ds := by
  simpa using addDocs_eq_dedupAux ds []

theorem webSearchRun_eq_dedup (s : SubjectProfile) (broad : Option (List Document))
    (deep : List (Option (List Document))) :
    (webSearchRun s broad deep).1 = dedupAux [] (searchStream s broad deep) := by
  simp only [webSearchRun, searchStream, phaseAdd_nil_eq]
  by_cases h : 0 < (addDocs [] (broad.getD [])).length ∨ pyLower s.name ∈ highProfileNames
  · rw [if_pos h, if_pos h, foldl_phaseAdd]
    rw [← addDocs_append, addDocs_nil_eq]
  · rw [if_neg h, if_neg h, addDocs_nil_eq]

/-- C3: across both search phases the output document list of the search
stage contains no two entries with equal url, every url returned by the
service appears on exactly one kept entry, and the kept entry is the
first occurrence (in processing order) of its url. -/
theorem c3_documents_dedup (s : SubjectProfile) (broad : Option (List Document))
    (deep : List (Option (List Document))) :
    (webSearchRun s broad deep).1.Pairwise (fun a b => a.url ≠ b.url)
    ∧ (∀ d ∈ searchStream s broad deep,
        ∃ e ∈ (webSearchRun s broad deep).1, e.url = d.url)
    ∧ (∀ e ∈ (webSearchRun s broad deep).1,
        (searchStream s broad deep).find? (fun x => x.url == e.url) = some e) := by
  rw [webSearchRun_eq_dedup]
  refine ⟨dedupAux_pairwise _ [], fun d hd => ?_, fun e he => dedupAux_find _ [] e he⟩
  rcases dedupAux_complete (searchStream s broad deep) [] d hd with hs | hex
  · exact absurd hs (by simp)
  · exact hex

/-- Witness for C3: feeding the url "u1" twice (once in each phase) and
"u2", "u3" once yields one entry per url, keeping first occurrences. -/
theorem c3_documents_dedup_witness :
    (webSearchRun acmeSubject (some [docA, docA2, docB]) [some [docA2, docC]]).1.Pairwise
        (fun a b => a.url ≠ b.url)
    ∧ (∃ e ∈ (webSearchRun acmeSubject (some [docA, docA2, docB]) [some [docA2, docC]]).1,
        e.url = docA2.url)
    ∧ (searchStream acmeSubject (some [docA, docA2, docB]) [some [docA2, docC]]).find?
        (fun x => x.url == docA.url) = some docA := by
  obtain ⟨h1, h2, h3⟩ := c3_documents_dedup acmeSubject (some [docA, docA2, docB]) [some [docA2, docC]]
  exact ⟨h1, h2 docA2 (by decide), h3 docA (by decide)⟩

/-! ### Lemmas about the aggregation of the summarization stage -/

theorem mem_addUrl (us : List String) (u v : String) :
    v ∈ addUrl us u ↔ v ∈ us ∨ v = u := by
  unfold addUrl
  by_cases h : u ∈ us
  · rw [if_pos h]
    exact ⟨Or.inl, fun hv => hv.elim id (fun hvu => hvu ▸ h)⟩
  · rw [if_neg h]
    simp

theorem addUrl_nodup (us : List String) (u : String) (h : us.Nodup) :
    (addUrl us u).Nodup := by
  unfold addUrl
  by_cases hm : u ∈ us
  · rwa [if_pos hm]
  · rw [if_neg hm]
    simp [List.nodup_append, h, hm]

theorem addUrl_ne_nil (us : List String) (u : String) (h : us ≠ []) :
    addUrl us u ≠ [] := by
  unfold addUrl
  by_cases hm : u ∈ us
  · rwa [if_pos hm]
  · rw [if_neg hm]
    simp

theorem addUrl_length (us : List String) (u : String) :
    (addUrl us u).length ≤ us.length + 1 := by
  unfold addUrl
  by_cases hm : u ∈ us
  · rw [if_pos hm]; omega
  · rw [if_neg hm]; simp

theorem bump_keys (k : String × String) (u : String) :
    ∀ acc : List ((String × String) × Nat × List String),
      (bump k u acc).map Prod.fst
        = if k ∈ acc.map Prod.fst then acc.map Prod.fst
          else acc.map Prod.fst ++ [k] := by
  intro acc
  induction acc with
  | nil => simp [bump]
  | cons g rest ih =>
    obtain ⟨k', c, us⟩ := g
    by_cases h : k' = k
    · subst h
      simp [bump]
    · simp only [bump, if_neg h, List.map_cons, ih]
      by_cases h2 : k ∈ rest.map Prod.fst
      · rw [if_pos h2, if_pos (by simp [h2])]
      · rw [if_neg h2, if_neg (by simp [h2]; exact fun hc => h hc.symm)]
        simp

theorem mem_bump (k : String × String) (u : String) :
    ∀ acc : List ((String × String) × Nat × List String),
      (acc.map Prod.fst).Nodup → ∀ g, g ∈ bump k u acc ↔
        (g ∈ acc ∧ g.1 ≠ k)
        ∨ (∃ c us, (k, c, us) ∈ acc ∧ g = (k, c + 1, addUrl us u))
        ∨ (k ∉ acc.map Prod.fst ∧ g = (k, 1, [u])) := by
  intro acc
  induction acc with
  | nil =>
    intro _ g
    simp [bump]
  | cons hd rest ih =>
    obtain ⟨k', c, us⟩ := hd
    intro hnd g
    rw [List.map_cons, List.nodup_cons] at hnd
    obtain ⟨hk', hndr⟩ := hnd
    by_cases h : k' = k
    · subst h
      rw [bump, if_pos rfl]
      constructor
      · intro hg
        rcases List.mem_cons.mp hg with rfl | hg2
        · exact Or.inr (Or.inl ⟨c, us, List.mem_cons_self _ _, rfl⟩)
        · exact Or.inl ⟨List.mem_cons_of_mem _ hg2,
            fun hc => hk' (List.mem_map.mpr ⟨g, hg2, hc⟩)⟩
      · intro hg
        rcases hg with ⟨hg1, hg2⟩ | ⟨c', us', hmem, hgeq⟩ | ⟨hnm, _⟩
        · rcases List.mem_cons.mp hg1 with rfl | hg3
          · exact absurd rfl hg2
          · exact List.mem_cons_of_mem _ hg3
        · rcases List.mem_cons.mp hmem with heq | hmem2
          · obtain ⟨h1, h2⟩ := Prod.mk.injEq .. ▸ heq
            injection heq with e1 e2
            injection e2 with e3 e4
            subst e3; subst e4
            exact hgeq ▸ List.mem_cons_self _ _
          · exact absurd (List.mem_map_of_mem Prod.fst hmem2) hk'
        · exact absurd (List.mem_cons_self _ _) hnm
    · rw [bump, if_neg h]
      constructor
      · intro hg
        rcases List.mem_cons.mp hg with rfl | hg2
        · exact Or.inl ⟨List.mem_cons_self _ _, fun hc => h (by simpa using hc)⟩
        · rcases (ih hndr g).mp hg2 with ⟨h1, h2⟩ | ⟨c', us', hmem, hgeq⟩ | ⟨hnm, hgeq⟩
          · exact Or.inl ⟨List.mem_cons_of_mem _ h1, h2⟩
          · exact Or.inr (Or.inl ⟨c', us', List.mem_cons_of_mem _ hmem, hgeq⟩)
          · refine Or.inr (Or.inr ⟨?_, hgeq⟩)
            simp only [List.map_cons, List.mem_cons]
            rintro (hc | hc)
            · exact h hc.symm
            · exact hnm hc
      · intro hg
        rcases hg with ⟨hg1, hg2⟩ | ⟨c', us', hmem, hgeq⟩ | ⟨hnm, hgeq⟩
        · rcases List.mem_cons.mp hg1 with rfl | hg3
          · exact List.mem_cons_self _ _
          · exact List.mem_cons_of_mem _ ((ih hndr g).mpr (Or.inl ⟨hg3, hg2⟩))
        · rcases List.mem_cons.mp hmem with heq | hmem2
          · exact absurd (congrArg Prod.fst heq).symm h
          · exact List.mem_cons_of_mem _
              ((ih hndr g).mpr (Or.inr (Or.inl ⟨c', us', hmem2, hgeq⟩)))
        · simp only [List.map_cons, List.mem_cons] at hnm
          push_neg at hnm
          exact List.mem_cons_of_mem _
            ((ih hndr g).mpr (Or.inr (Or.inr ⟨hnm.2, hgeq⟩)))

theorem bump_count_sum (k : String × String) (u : String) :
    ∀ acc : List ((String × String) × Nat × List String),
      ((bump k u acc).map (fun g => g.2.1)).sum
        = ((acc.map (fun g => g.2.1)).sum) + 1 := by
  intro acc
  induction acc with
  | nil => simp [bump]
  | cons hd rest ih =>
    obtain ⟨k', c, us⟩ := hd
    by_cases h : k' = k
    · subst h
      simp [bump]
      omega
    · simp only [bump, if_neg h, List.map_cons, List.sum_cons, ih]
      omega

/-! ### Lemmas about the stable descending sort of the summarization stage -/

theorem insertByCount_perm (x : SummarizedEntity) :
    ∀ l, List.Perm (insertByCount x l) (x :: l) := by
  intro l
  induction l with
  | nil => exact List.Perm.refl _
  | cons y ys ih =>
    by_cases h : x.count < y.count
    · rw [insertByCount, if_pos h]
      exact (List.Perm.cons y ih).trans (List.Perm.swap x y ys)
    · rw [insertByCount, if_neg h]

theorem sortByCountDesc_perm : ∀ l, List.Perm (sortByCountDesc l) l := by
  intro l
  induction l with
  | nil => exact List.Perm.refl _
  | cons x xs ih =>
    exact (insertByCount_perm x (sortByCountDesc xs)).trans (List.Perm.cons x ih)

theorem mem_insertByCount (x a : SummarizedEntity) (l : List SummarizedEntity) :
    a ∈ insertByCount x l ↔ a = x ∨ a ∈ l := by
  rw [(insertByCount_perm x l).mem_iff]
  exact List.mem_cons

theorem insertByCount_sorted (x : SummarizedEntity) :
    ∀ l, l.Pairwise (fun a b => b.count ≤ a.count) →
      (insertByCount x l).Pairwise (fun a b => b.count ≤ a.count) := by
  intro l
  induction l with
  | nil => intro _; simp [insertByCount]
  | cons y ys ih =>
    intro hp
    rw [List.pairwise_cons] at hp
    by_cases h : x.count < y.count
    · rw [insertByCount, if_pos h]
      refine List.pairwise_cons.mpr ⟨fun b hb => ?_, ih hp.2⟩
      rcases (mem_insertByCount x b ys).mp hb with rfl | hb2
      · exact Nat.le_of_lt h
      · exact hp.1 b hb2
    · rw [insertByCount, if_neg h]
      push_neg at h
      refine List.pairwise_cons.mpr ⟨fun b hb => ?_, List.pairwise_cons.mpr hp⟩
      rcases List.mem_cons.mp hb with rfl | hb2
      · exact h
      · exact le_trans (hp.1 b hb2) h

theorem sortByCountDesc_sorted :
    ∀ l, (sortByCountDesc l).Pairwise (fun a b => b.count ≤ a.count) := by
  intro l
  induction l with
  | nil => simp [sortByCountDesc]
  | cons x xs ih => exact insertByCount_sorted x _ ih

theorem filter_insertByCount_pos (x : SummarizedEntity) (n : Nat) (hx : x.count = n) :
    ∀ l, (insertByCount x l).filter (fun e => e.count == n)
      = x :: l.filter (fun e => e.count == n) := by
  intro l
  induction l with
  | nil => simp [insertByCount, List.filter, hx]
  | cons y ys ih =>
    by_cases h : x.count < y.count
    · rw [insertByCount, if_pos h]
      have hy : (y.count == n) = false := by
        subst hx
        simp only [beq_eq_false_iff_ne, ne_eq]
        omega
      simp [List.filter_cons, hy, ih]
    · rw [insertByCount, if_neg h]
      have hx2 : (x.count == n) = true := by simp [hx]
      simp [List.filter_cons, hx2]

theorem filter_insertByCount_neg (x : SummarizedEntity) (n : Nat) (hx : x.count ≠ n) :
    ∀ l, (insertByCount x l).filter (fun e => e.count == n)
      = l.filter (fun e => e.count == n) := by
  intro l
  induction l with
  | nil =>
    have hx2 : (x.count == n) = false := by simp [hx]
    simp [insertByCount, List.filter, hx2]
  | cons y ys ih =>
    by_cases h : x.count < y.count
    · rw [insertByCount, if_pos h]
      simp only [List.filter_cons, ih]
    · rw [insertByCount, if_neg h]
      have hx2 : (x.count == n) = false := by simp [hx]
      simp [List.filter_cons, hx2]

theorem sortByCountDesc_stable :
    ∀ (l : List SummarizedEntity) (n : Nat),
      (sortByCountDesc l).filter (fun e => e.count == n)
        = l.filter (fun e => e.count == n) := by
  intro l
  induction l with
  | nil => intro n; rfl
  | cons x xs ih =>
    intro n
    rw [sortByCountDesc]
    by_cases h : x.count = n
    · rw [filter_insertByCount_pos x n h, ih n, List.filter_cons]
      simp [h]
    · rw [filter_insertByCount_neg x n h, ih n, List.filter_cons]
      simp [h]

theorem bump_step (e : ExtractedEntity) (done : List ExtractedEntity)
    (acc : List ((String × String) × Nat × List String))
    (h1 : (acc.map Prod.fst).Nodup)
    (h2 : ∀ x ∈ done, normKey x ∈ acc.map Prod.fst)
    (h3 : ∀ g ∈ acc, g.2.1 = done.countP (fun x => decide (normKey x = g.1)))
    (h4 : ∀ g ∈ acc, ∀ v, v ∈ g.2.2 ↔
        ∃ x ∈ done, normKey x = g.1 ∧ x.source_document_url = v)
    (h5 : ∀ g ∈ acc, g.2.2.Nodup)
    (h6 : ∀ g ∈ acc, g.2.2 ≠ [])
    (h7 : ∀ g ∈ acc, g.2.2.length ≤ g.2.1) :
    ((bump (normKey e) e.source_document_url acc).map Prod.fst).Nodup
    ∧ (∀ x ∈ done ++ [e],
        normKey x ∈ (bump (normKey e) e.source_document_url acc).map Prod.fst)
    ∧ (∀ g ∈ bump (normKey e) e.source_document_url acc,
        g.2.1 = (done ++ [e]).countP (fun x => decide (normKey x = g.1)))
    ∧ (∀ g ∈ bump (normKey e) e.source_document_url acc, ∀ v, v ∈ g.2.2 ↔
        ∃ x ∈ done ++ [e], normKey x = g.1 ∧ x.source_document_url = v)
    ∧ (∀ g ∈ bump (normKey e) e.source_document_url acc, g.2.2.Nodup)
    ∧ (∀ g ∈ bump (normKey e) e.source_document_url acc, g.2.2 ≠ [])
    ∧ (∀ g ∈ bump (normKey e) e.source_document_url acc, g.2.2.length ≤ g.2.1) := by
  have hmb := mem_bump (normKey e) e.source_document_url acc h1
  have hbk := bump_keys (normKey e) e.source_document_url acc
  have gkeys : ∀ k2, k2 ∈ (bump (normKey e) e.source_document_url acc).map Prod.fst ↔
      (k2 ∈ acc.map Prod.fst ∨ k2 = normKey e) := by
    intro k2
    rw [hbk]
    by_cases hk : normKey e ∈ acc.map Prod.fst
    · rw [if_pos hk]
      exact ⟨Or.inl, fun h => h.elim id (fun hh => hh ▸ hk)⟩
    · rw [if_neg hk]
      simp
  refine ⟨?_, ?_, ?_, ?_, ?_, ?_, ?_⟩
  · rw [hbk]
    by_cases hk : normKey e ∈ acc.map Prod.fst
    · rw [if_pos hk]; exact h1
    · rw [if_neg hk]
      simp [List.nodup_append, h1, hk]
  · intro x hx
    rcases List.mem_append.mp hx with hx1 | hx2
    · exact (gkeys _).mpr (Or.inl (h2 x hx1))
    · rw [List.mem_singleton.mp hx2]
      exact (gkeys _).mpr (Or.inr rfl)
  · intro g hg
    rcases (hmb g).mp hg with ⟨hga, hgk⟩ | ⟨c, us, hmem, hgeq⟩ | ⟨hnm, hgeq⟩
    · rw [List.countP_append]
      have he0 : List.countP (fun x => decide (normKey x = g.1)) [e] = 0 := by
        simp only [List.countP_cons, List.countP_nil]
        have : ¬(normKey e = g.1) := fun hc => hgk hc.symm
        simp [this]
      rw [he0, Nat.add_zero]
      exact h3 g hga
    · subst hgeq
      rw [List.countP_append]
      have he1 : List.countP (fun x => decide (normKey x = normKey e)) [e] = 1 := by
        simp [List.countP_cons]
      have hc := h3 _ hmem
      simp only at hc
      simp only [he1, hc]
    · subst hgeq
      rw [List.countP_append]
      have hz : List.countP (fun x => decide (normKey x = normKey e)) done = 0 := by
        rw [List.countP_eq_zero]
        intro x hx
        simp only [decide_eq_true_eq]
        exact fun hc => hnm (hc ▸ h2 x hx)
      have he1 : List.countP (fun x => decide (normKey x = normKey e)) [e] = 1 := by
        simp [List.countP_cons]
      simp only [hz, he1]
  · intro g hg v
    rcases (hmb g).mp hg with ⟨hga, hgk⟩ | ⟨c, us, hmem, hgeq⟩ | ⟨hnm, hgeq⟩
    · rw [h4 g hga v]
      constructor
      · rintro ⟨x, hx, hk2, hu⟩
        exact ⟨x, List.mem_append_left _ hx, hk2, hu⟩
      · rintro ⟨x, hx, hk2, hu⟩
        rcases List.mem_append.mp hx with hx1 | hx2
        · exact ⟨x, hx1, hk2, hu⟩
        · rw [List.mem_singleton.mp hx2] at hk2
          exact absurd hk2.symm hgk
    · subst hgeq
      rw [mem_addUrl]
      have hus := h4 _ hmem
      constructor
      · rintro (hv | hveq)
        · obtain ⟨x, hx, hk2, hu⟩ := (hus v).mp hv
          exact ⟨x, List.mem_append_left _ hx, hk2, hu⟩
        · exact ⟨e, List.mem_append_right _ (List.mem_singleton_self e), rfl, hveq.symm⟩
      · rintro ⟨x, hx, hk2, hu⟩
        rcases List.mem_append.mp hx with hx1 | hx2
        · exact Or.inl ((hus v).mpr ⟨x, hx1, hk2, hu⟩)
        · rw [List.mem_singleton.mp hx2] at hu
          exact Or.inr hu.symm
    · subst hgeq
      simp only [List.mem_singleton]
      constructor
      · rintro rfl
        exact ⟨e, List.mem_append_right _ (List.mem_singleton_self e), rfl, rfl⟩
      · rintro ⟨x, hx, hk2, hu⟩
        rcases List.mem_append.mp hx with hx1 | hx2
        · exact absurd (hk2 ▸ h2 x hx1) hnm
        · rw [List.mem_singleton.mp hx2] at hu
          exact hu.symm
  · intro g hg
    rcases (hmb g).mp hg with ⟨hga, _⟩ | ⟨c, us, hmem, hgeq⟩ | ⟨_, hgeq⟩
    · exact h5 g hga
    · subst hgeq
      exact addUrl_nodup us e.source_document_url (h5 _ hmem)
    · subst hgeq
      exact List.nodup_singleton _
  · intro g hg
    rcases (hmb g).mp hg with ⟨hga, _⟩ | ⟨c, us, hmem, hgeq⟩ | ⟨_, hgeq⟩
    · exact h6 g hga
    · subst hgeq
      exact addUrl_ne_nil us e.source_document_url (h6 _ hmem)
    · subst hgeq
      simp
  · intro g hg
    rcases (hmb g).mp hg with ⟨hga, _⟩ | ⟨c, us, hmem, hgeq⟩ | ⟨_, hgeq⟩
    · exact h7 g hga
    · subst hgeq
      have := h7 _ hmem
      simp only at this ⊢
      have hl := addUrl_length us e.source_document_url
      omega
    · subst hgeq
      simp

theorem groups_inv (pending : List ExtractedEntity) :
    ∀ (done : List ExtractedEntity) (acc : List ((String × String) × Nat × List String)),
      (acc.map Prod.fst).Nodup →
      (∀ x ∈ done, normKey x ∈ acc.map Prod.fst) →
      (∀ g ∈ acc, g.2.1 = done.countP (fun x => decide (normKey x = g.1))) →
      (∀ g ∈ acc, ∀ v, v ∈ g.2.2 ↔
          ∃ x ∈ done, normKey x = g.1 ∧ x.source_document_url = v) →
      (∀ g ∈ acc, g.2.2.Nodup) →
      (∀ g ∈ acc, g.2.2 ≠ []) →
      (∀ g ∈ acc, g.2.2.length ≤ g.2.1) →
      (((pending.foldl (fun g x => bump (normKey x) x.source_document_url g) acc).map
          Prod.fst).Nodup)
      ∧ (∀ g ∈ pending.foldl (fun g x => bump (normKey x) x.source_document_url g) acc,
          g.2.1 = (done ++ pending).countP (fun x => decide (normKey x = g.1))
          ∧ (∀ v, v ∈ g.2.2 ↔
              ∃ x ∈ done ++ pending, normKey x = g.1 ∧ x.source_document_url = v)
          ∧ g.2.2.Nodup ∧ g.2.2 ≠ [] ∧ g.2.2.length ≤ g.2.1) := by
  induction pending with
  | nil =>
    intro done acc h1 h2 h3 h4 h5 h6 h7
    simp only [List.foldl_nil, List.append_nil]
    exact ⟨h1, fun g hg => ⟨h3 g hg, h4 g hg, h5 g hg, h6 g hg, h7 g hg⟩⟩
  | cons e rest ih =>
    intro done acc h1 h2 h3 h4 h5 h6 h7
    rw [List.foldl_cons]
    obtain ⟨g1, g2, g3, g4, g5, g6, g7⟩ := bump_step e done acc h1 h2 h3 h4 h5 h6 h7
    have hres := ih (done ++ [e]) _ g1 g2 g3 g4 g5 g6 g7
    rw [List.append_cons done e rest]
    exact hres

theorem entityGroups_spec (raw : List ExtractedEntity) :
    (((entityGroups raw).map Prod.fst).Nodup)
    ∧ (∀ g ∈ entityGroups raw,
        g.2.1 = raw.countP (fun x => decide (normKey x = g.1))
        ∧ (∀ v, v ∈ g.2.2 ↔ ∃ x ∈ raw, normKey x = g.1 ∧ x.source_document_url = v)
        ∧ g.2.2.Nodup ∧ g.2.2 ≠ [] ∧ g.2.2.length ≤ g.2.1) := by
  have h := groups_inv raw [] [] (by simp) (by simp) (by simp) (by simp) (by simp)
    (by simp) (by simp)
  simpa [entityGroups] using h

theorem foldl_bump_sum (raw : List ExtractedEntity) :
    ∀ acc, (((raw.foldl (fun g x => bump (normKey x) x.source_document_url g) acc).map
        (fun g => g.2.1)).sum)
      = ((acc.map (fun g => g.2.1)).sum) + raw.length := by
  induction raw with
  | nil => intro acc; simp
  | cons e rest ih =>
    intro acc
    rw [List.foldl_cons, ih, bump_count_sum]
    simp only [List.length_cons]
    omega

/-- C5: the three raw mentions ("Tesla","Company",u1), ("tesla","company",u1),
("TESLA","Company",u2) summarize to exactly one entity named "Tesla" of type
"Company" with count 3 whose source urls are exactly the set {u1, u2}; in
general the stage groups raw entities by the normalized key (trimmed
lower-cased name, lower-cased type) with one group per key, each group's
count is the number of raw mentions with that key, its url list holds
exactly the urls of those mentions, and the stage output is the sorted
display of those groups. -/
theorem c5_summarization_aggregation :
    (∀ u1 u2 : String,
      ∃ us : List String,
        summarizeEntities [⟨"Tesla", "Company", u1⟩, ⟨"tesla", "company", u1⟩,
            ⟨"TESLA", "Company", u2⟩]
          = [⟨"Tesla", "Company", 3, us⟩]
        ∧ (∀ u, u ∈ us ↔ u = u1 ∨ u = u2)
        ∧ us.Nodup)
    ∧ (∀ raw : List ExtractedEntity, ((entityGroups raw).map Prod.fst).Nodup)
    ∧ (∀ raw : List ExtractedEntity, ∀ g ∈ entityGroups raw,
        g.2.1 = raw.countP (fun x => decide (normKey x = g.1))
        ∧ (∀ v, v ∈ g.2.2 ↔ ∃ x ∈ raw, normKey x = g.1 ∧ x.source_document_url = v))
    ∧ (∀ raw, summarizeEntities raw = sortByCountDesc ((entityGroups raw).map displayEntity)) := by
  refine ⟨?_, fun raw => (entityGroups_spec raw).1,
    fun raw g hg => ⟨((entityGroups_spec raw).2 g hg).1, ((entityGroups_spec raw).2 g hg).2.1⟩,
    fun raw => rfl⟩
  intro u1 u2
  have ha1 : addUrl [u1] u1 = [u1] := by simp [addUrl]
  have hg : entityGroups [⟨"Tesla", "Company", u1⟩, ⟨"tesla", "company", u1⟩,
      ⟨"TESLA", "Company", u2⟩]
      = [(("tesla", "company"), 3, addUrl [u1] u2)] := by
    show bump ("tesla", "company") u2 (bump ("tesla", "company") u1
        (bump ("tesla", "company") u1 [])) = [(("tesla", "company"), 3, addUrl [u1] u2)]
    rw [show bump ("tesla", "company") u1 ([] :
        List ((String × String) × Nat × List String))
      = [(("tesla", "company"), 1, [u1])] from rfl]
    rw [show bump ("tesla", "company") u1 [(("tesla", "company"), 1, [u1])]
      = [(("tesla", "company"), 2, addUrl [u1] u1)] from by simp [bump]]
    rw [ha1]
    rfl
  refine ⟨addUrl [u1] u2, ?_, ?_, addUrl_nodup [u1] u2 (List.nodup_singleton u1)⟩
  · unfold summarizeEntities
    rw [hg]
    rfl
  · intro u
    rw [mem_addUrl]
    simp

/-- Witness for C5 at concrete urls: the group of the three Tesla mentions
carries count 3 and exactly the urls "u1" and "u2". -/
theorem c5_summarization_aggregation_witness :
    ((("tesla", "company"), 3, ["u1", "u2"]) ∈ entityGroups tesRaw)
    ∧ (3 = tesRaw.countP (fun x => decide (normKey x = ("tesla", "company"))))
    ∧ (∀ v, v ∈ (["u1", "u2"] : List String) ↔
        ∃ x ∈ tesRaw, normKey x = ("tesla", "company") ∧ x.source_document_url = v) := by
  have h := c5_summarization_aggregation.2.2.1 tesRaw
    (("tesla", "company"), 3, ["u1", "u2"]) (by decide)
  exact ⟨by decide, h.1, h.2⟩

/-- C6: the summarization output is sorted by count descending, is a
permutation of the emitted group list, entries with equal count keep
their insertion (first-appearance) order, and four groups with counts
[5, 1, 5, 3] inserted in order A, B, C, D come out as [A, C, D, B]. -/
theorem c6_sort_descending_stable :
    (∀ raw : List ExtractedEntity,
      (summarizeEntities raw).Pairwise (fun a b => b.count ≤ a.count))
    ∧ (∀ raw : List ExtractedEntity,
      List.Perm (summarizeEntities raw) ((entityGroups raw).map displayEntity))
    ∧ (∀ (raw : List ExtractedEntity) (n : Nat),
      (summarizeEntities raw).filter (fun e => e.count == n)
        = ((entityGroups raw).map displayEntity).filter (fun e => e.count == n))
    ∧ (((entityGroups c6Raw).map displayEntity).map (fun e => (e.name, e.count))
        = [("A", 5), ("B", 1), ("C", 5), ("D", 3)])
    ∧ ((summarizeEntities c6Raw).map (fun e => (e.name, e.count))
        = [("A", 5), ("C", 5), ("D", 3), ("B", 1)]) := by
  exact ⟨fun raw => sortByCountDesc_sorted _,
    fun raw => sortByCountDesc_perm _,
    fun raw n => sortByCountDesc_stable _ n,
    by decide, by decide⟩

/-- C9: summarization loses no mention and counts none twice — the counts
of the emitted entities sum to the number of raw input entities. -/
theorem c9_counts_sum_to_length (raw : List ExtractedEntity) :
    ((summarizeEntities raw).map (fun e => e.count)).sum = raw.length := by
  unfold summarizeEntities
  rw [((sortByCountDesc_perm ((entityGroups raw).map displayEntity)).map
    (fun e => e.count)).sum_eq]
  rw [List.map_map]
  have hc : ((fun e => e.count) ∘ displayEntity) = (fun g : (String × String) × Nat × List String => g.2.1) := rfl
  rw [hc]
  have h := foldl_bump_sum raw []
  simpa [entityGroups] using h

/-- C10: every emitted SummarizedEntity has a non-empty, duplicate-free
source url list of length at most its count. -/
theorem c10_source_urls_invariant (raw : List ExtractedEntity) :
    ∀ e ∈ summarizeEntities raw,
      e.source_urls ≠ [] ∧ e.source_urls.Nodup ∧ e.source_urls.length ≤ e.count := by
  intro e he
  have he2 : e ∈ (entityGroups raw).map displayEntity :=
    (sortByCountDesc_perm ((entityGroups raw).map displayEntity)).mem_iff.mp he
  obtain ⟨g, hg, rfl⟩ := List.mem_map.mp he2
  obtain ⟨_, hspec⟩ := entityGroups_spec raw
  obtain ⟨_, _, hnd, hne, hlen⟩ := hspec g hg
  exact ⟨hne, hnd, hlen⟩

/-- Witness for C10 on the concrete Tesla input: the single output entity
has the duplicate-free non-empty url list ["u1", "u2"] of length 2 ≤ 3. -/
theorem c10_source_urls_invariant_witness :
    ((⟨"Tesla", "Company", 3, ["u1", "u2"]⟩ : SummarizedEntity) ∈ summarizeEntities tesRaw)
    ∧ (["u1", "u2"] : List String) ≠ []
    ∧ (["u1", "u2"] : List String).Nodup
    ∧ (["u1", "u2"] : List String).length ≤ 3 := by
  have h := c10_source_urls_invariant tesRaw ⟨"Tesla", "Company", 3, ["u1", "u2"]⟩ (by decide)
  exact ⟨by decide, h.1, h.2.1, h.2.2⟩

/-! ### Lemmas about the risk analysis stage -/

theorem categoryRisk_type (doc : Document) (p : String × List String) (r : Risk)
    (h : categoryRisk doc p = some r) : r.risk_type = p.1 := by
  unfold categoryRisk at h
  obtain ⟨kw, _, hr⟩ := Option.map_eq_some'.mp h
  rw [← hr]

theorem mem_filterMap_risk_type (doc : Document) (tbl : List (String × List String))
    (r : Risk) (h : r ∈ tbl.filterMap (categoryRisk doc)) :
    r.risk_type ∈ tbl.map Prod.fst := by
  obtain ⟨p, hp, hr⟩ := List.mem_filterMap.mp h
  exact List.mem_map.mpr ⟨p, hp, (categoryRisk_type doc p r hr).symm⟩

theorem filterMap_risk_count (doc : Document) (c : String) :
    ∀ tbl : List (String × List String), (tbl.map Prod.fst).Nodup →
      ((tbl.filterMap (categoryRisk doc)).filter (fun r => r.risk_type == c)).length ≤ 1 := by
  intro tbl
  induction tbl with
  | nil => intro _; simp
  | cons p rest ih =>
    intro hnd
    rw [List.map_cons, List.nodup_cons] at hnd
    rw [List.filterMap_cons]
    cases hcr : categoryRisk doc p with
    | none => exact ih hnd.2
    | some r =>
      rw [List.filter_cons]
      by_cases hrt : (r.risk_type == c) = true
      · rw [if_pos hrt]
        have hzero : (rest.filterMap (categoryRisk doc)).filter
            (fun r2 => r2.risk_type == c) = [] := by
          rw [List.filter_eq_nil_iff]
          intro r2 hr2
          have ht2 := mem_filterMap_risk_type doc rest r2 hr2
          have hce : c = p.1 := by
            rw [← categoryRisk_type doc p r hcr]
            exact (eq_of_beq hrt).symm
          simp only [beq_iff_eq]
          intro hc2
          rw [hc2, hce] at ht2
          exact hnd.1 ht2
        rw [hzero]
        simp
      · rw [if_neg hrt]
        exact ih hnd.2

theorem findKeyword_first (content : String) :
    ∀ (kws : List String) (k : String), findKeyword content kws = some k →
      ∃ pre post, kws = pre ++ k :: post ∧ pyContains content k = true
        ∧ ∀ k2 ∈ pre, pyContains content k2 = false := by
  intro kws
  induction kws with
  | nil => intro k h; exact absurd h (by simp [findKeyword])
  | cons k0 rest ih =>
    intro k h
    rw [findKeyword] at h
    by_cases hc : pyContains content k0
    · rw [if_pos hc] at h
      injection h with h
      subst h
      exact ⟨[], rest, rfl, hc, by simp⟩
    · rw [if_neg hc] at h
      obtain ⟨pre, post, hk, hck, hpre⟩ := ih k h
      refine ⟨k0 :: pre, post, by rw [hk]; rfl, hck, ?_⟩
      intro k2 hk2
      rcases List.mem_cons.mp hk2 with rfl | hk3
      · exact Bool.eq_false_iff.mpr hc
      · exact hpre k2 hk3

/-- C7: every document yields at most one Risk per risk category and at
most one Risk per category-table entry in total; the emitted keyword is
always the first keyword of its category's ordered list that occurs in
the content (later keywords are short-circuited) while later categories
are still scanned independently; in particular a document containing
both "lawsuit" and "sued" yields exactly one Legal risk, for the keyword
"lawsuit". -/
theorem c7_risk_single_match_per_category :
    (∀ doc : Document, (docRisks doc).length ≤ risk_keywords.length)
    ∧ (∀ (doc : Document) (c : String),
        ((docRisks doc).filter (fun r => r.risk_type == c)).length ≤ 1)
    ∧ (∀ docs : List Document, analyzeRisks docs = (docs.map docRisks).flatten)
    ∧ (∀ (content : String) (kws : List String) (k : String),
        findKeyword content kws = some k →
        ∃ pre post, kws = pre ++ k :: post ∧ pyContains content k = true
          ∧ ∀ k2 ∈ pre, pyContains content k2 = false)
    ∧ (docRisks ⟨"u", "t", "This firm faces a lawsuit and is sued", "s"⟩
        = [⟨"Legal", "Document contains keyword: \x27lawsuit\x27", "u"⟩])
    ∧ ((docRisks ⟨"u", "t", "a lawsuit and a scandal", "s"⟩).map (fun r => r.risk_type)
        = ["Legal", "Reputational"]) := by
  refine ⟨fun doc => List.length_filterMap_le _ _,
    fun doc c => filterMap_risk_count doc c risk_keywords (by decide),
    fun docs => rfl,
    fun content kws k h => findKeyword_first content kws k h,
    by decide, by decide⟩

/-- Witness for C7 at a concrete input: on the keyword list of the Legal
category and the content "a lawsuit and a scandal", the found keyword
"lawsuit" is the first match, with no earlier keyword matching. -/
theorem c7_risk_single_match_witness :
    findKeyword (pyLower "a lawsuit and a scandal") ["court", "lawsuit", "sued"]
      = some "lawsuit"
    ∧ ∃ pre post, (["court", "lawsuit", "sued"] : List String) = pre ++ "lawsuit" :: post
        ∧ pyContains (pyLower "a lawsuit and a scandal") "lawsuit" = true
        ∧ ∀ k2 ∈ pre, pyContains (pyLower "a lawsuit and a scandal") k2 = false := by
  exact ⟨by decide, c7_risk_single_match_per_category.2.2.2.1
    (pyLower "a lawsuit and a scandal") ["court", "lawsuit", "sued"] "lawsuit" (by decide)⟩

/-- C8: a failed extraction call for one document contributes zero
entities while the other processed documents' entities appear in
processing order — with three documents where the second fails, the
result is exactly the entities of documents one and three — and the
compiled run still reaches the terminal state carrying that result. -/
theorem c8_extraction_failure_isolated :
    (∀ (m : Nat) (oracle : Document → Option (List ExtractedEntity)) (d1 d2 d3 : Document),
      3 ≤ m → oracle d2 = none →
      extractEntities m oracle [d1, d2, d3] = (oracle d1).getD [] ++ (oracle d3).getD [])
    ∧ (∀ (m : Nat) (oracle : Document → Option (List ExtractedEntity))
        (pre post : List Document) (d : Document),
      (pre ++ d :: post).length ≤ m → oracle d = none →
      extractEntities m oracle (pre ++ d :: post)
        = (pre.map (fun x => (oracle x).getD [])).flatten
          ++ (post.map (fun x => (oracle x).getD [])).flatten)
    ∧ (∀ (o : Oracles) (init : InvestigationState),
      (runCompiled o init).extracted_entities
        = extractEntities o.maxDocs o.entities (webSearchRun init.subject o.broad o.deep).1)
    ∧ reachesEnd 10 workflowEntry = true := by
  refine ⟨?_, ?_, fun o init => rfl, by decide⟩
  · intro m oracle d1 d2 d3 hm h2
    unfold extractEntities
    rw [List.take_of_length_le (by simpa using hm)]
    simp [h2]
  · intro m oracle pre post d hlen h2
    unfold extractEntities
    rw [List.take_of_length_le hlen]
    simp [h2]

/-- Witness for C8: with three concrete documents whose second extraction
call fails, the stage output is exactly the entities of documents one
and three. -/
theorem c8_extraction_failure_isolated_witness :
    (3 ≤ 5 ∧ c8Oracle docB = none)
    ∧ extractEntities 5 c8Oracle [docA, docB, docC]
      = [⟨"Beta Inc", "Company", "u1"⟩, ⟨"Beta Inc", "Company", "u3"⟩] := by
  have h := c8_extraction_failure_isolated.1 5 c8Oracle docA docB docC (by omega) (by rfl)
  refine ⟨⟨by omega, rfl⟩, ?_⟩
  rw [h]
  rfl

end Aura
